import Mathlib

/-!
Shallow embedding of the gamma-exposure analytics core of
`picklenerd/market_analyzer` (`src/analysis/gamma_exposure.rs`), together
with proofs about the claims of its specification.

Modelling conventions:

* `f64` values are modelled by `FV`: an exact rational, `nan`, or a signed
  infinity.  The IEEE behaviours the source relies on are reproduced
  exactly (comparisons with NaN are false, NaN propagates through
  arithmetic, `f64::max`/`f64::min` ignore a NaN argument, division of a
  nonzero value by zero gives a signed infinity and `0.0/0.0` gives NaN).
  Rounding of arithmetic and the negative zero are not modelled; no claim
  below depends on either.
* `BTreeMap<String, f64>` keys produced by the aggregators are
  `f64::to_string` renderings of strike values.  Since Rust renders `f64`
  with the shortest round-tripping decimal, rendering is injective, so the
  aggregator maps are modelled as association lists keyed directly by the
  rational strike value.  The statistics summarizer, whose behaviour
  depends on the textual form of keys (parsing and lexicographic
  comparison), keeps genuine `String` keys.
* The Black-Scholes `gamma` lives in `src/math/bs.rs`, which is not part
  of the sources; every definition that needs it is parametrised by a
  function `gammaFn : FV → FV → FV → FV → FV → FV` with the argument order
  of the source call `gamma(sigma, expiration_time, current_time, price,
  strike)`.  No settled claim depends on the values this function takes.
-/

/-- Model of an `f64` value: an exact rational, NaN, or a signed infinity. -/
inductive FV where
  | num (q : ℚ)
  | nan
  | posInf
  | negInf
deriving DecidableEq, Repr

namespace FV

/-- IEEE `<` comparison: any comparison with NaN is false. -/
def fvLt : FV → FV → Bool
  | nan, _ => false
  | _, nan => false
  | num a, num b => decide (a < b)
  | negInf, negInf => false
  | negInf, _ => true
  | _, negInf => false
  | posInf, _ => false
  | num _, posInf => true

/-- IEEE `>` comparison. -/
def fvGt (a b : FV) : Bool := fvLt b a

/-- IEEE `>=` comparison: false if either side is NaN. -/
def fvGe : FV → FV → Bool
  | nan, _ => false
  | _, nan => false
  | a, b => !(fvLt a b)

/-- IEEE addition on the model (NaN propagates, opposite infinities give NaN). -/
def fvAdd : FV → FV → FV
  | nan, _ => nan
  | _, nan => nan
  | posInf, negInf => nan
  | negInf, posInf => nan
  | posInf, _ => posInf
  | _, posInf => posInf
  | negInf, _ => negInf
  | _, negInf => negInf
  | num a, num b => num (a + b)

/-- IEEE multiplication on the model (NaN propagates, `inf * 0 = NaN`). -/
def fvMul : FV → FV → FV
  | nan, _ => nan
  | _, nan => nan
  | num a, num b => num (a * b)
  | posInf, posInf => posInf
  | posInf, negInf => negInf
  | negInf, posInf => negInf
  | negInf, negInf => posInf
  | posInf, num b => if b = 0 then nan else if 0 < b then posInf else negInf
  | num a, posInf => if a = 0 then nan else if 0 < a then posInf else negInf
  | negInf, num b => if b = 0 then nan else if 0 < b then negInf else posInf
  | num a, negInf => if a = 0 then nan else if 0 < a then negInf else posInf

/-- IEEE division on the model (`0/0 = NaN`, `x/0 = ±inf` for `x ≠ 0`). -/
def fvDiv : FV → FV → FV
  | nan, _ => nan
  | _, nan => nan
  | num a, num b =>
      if b = 0 then (if a = 0 then nan else if 0 < a then posInf else negInf)
      else num (a / b)
  | posInf, posInf => nan
  | posInf, negInf => nan
  | negInf, posInf => nan
  | negInf, negInf => nan
  | posInf, num b => if 0 ≤ b then posInf else negInf
  | negInf, num b => if 0 ≤ b then negInf else posInf
  | num _, posInf => num 0
  | num _, negInf => num 0

/-- IEEE negation. -/
def fvNeg : FV → FV
  | num a => num (-a)
  | nan => nan
  | posInf => negInf
  | negInf => posInf

/-- IEEE absolute value. -/
def fvAbs : FV → FV
  | num a => num |a|
  | nan => nan
  | posInf => posInf
  | negInf => posInf

/-- Model of Rust `f64::max`: a NaN argument is ignored. -/
def fvMax (a b : FV) : FV :=
  match a, b with
  | nan, y => y
  | x, nan => x
  | x, y => if fvLt x y then y else x

/-- Model of Rust `f64::min`: a NaN argument is ignored. -/
def fvMin (a b : FV) : FV :=
  match a, b with
  | nan, y => y
  | x, nan => x
  | x, y => if fvLt y x then y else x

/-- Model of Rust `f64::is_nan`. -/
def isNan : FV → Bool
  | nan => true
  | _ => false

theorem fvAdd_nan_left (a : FV) : fvAdd nan a = nan := by
  cases a <;> rfl

theorem fvAdd_nan_right (a : FV) : fvAdd a nan = nan := by
  cases a <;> rfl

theorem fvAdd_zero_left (a : FV) : fvAdd (num 0) a = a := by
  cases a <;> simp [fvAdd]

theorem fvNeg_nan : fvNeg nan = nan := rfl

theorem fvNeg_zero : fvNeg (num 0) = num 0 := by
  simp [fvNeg]

/-- A strictly negative value (in the IEEE sense) never raises a maximum seeded at zero. -/
theorem fvMax_zero_of_neg (a : FV) (h : fvLt a (num 0) = true) :
    fvMax (num 0) a = num 0 := by
  cases a with
  | num q =>
      simp only [fvLt, decide_eq_true_eq] at h
      have hq : ¬ (0 < q) := not_lt.mpr (le_of_lt h)
      simp [fvMax, fvLt, hq]
  | nan => simp [fvLt] at h
  | posInf => simp [fvLt] at h
  | negInf => rfl

/-- A value that compares `>= 0` never lowers a minimum seeded at zero. -/
theorem fvMin_zero_of_nonneg (a : FV) (h : fvGe a (num 0) = true) :
    fvMin (num 0) a = num 0 := by
  cases a <;> simp_all [fvMin, fvGe, fvLt]

/-- The data-quality guard written `g > 1.0 || g < -1.0` in the source agrees
with the specification's formulation `|g| > 1` on every model value. -/
theorem guard_abs_eq (g : FV) :
    (fvGt g (num 1) || fvLt g (num (-1))) = fvGt (fvAbs g) (num 1) := by
  cases g with
  | num q =>
      simp only [fvGt, fvAbs, fvLt]
      by_cases h1 : 1 < q
      · have h : 1 < |q| := lt_abs.mpr (Or.inl h1)
        simp [h1, h]
      · by_cases h2 : q < -1
        · have h : 1 < |q| := lt_abs.mpr (Or.inr (by linarith))
          simp [h1, h2, h]
        · have h3 : ¬ 1 < |q| := by
            rw [lt_abs]
            push_neg
            constructor <;> linarith
          simp [h1, h2, h3]
  | nan => rfl
  | posInf => rfl
  | negInf => rfl

end FV

open FV

/-- Greeks of a contract as consumed by the analysis code: `gamma` and
`mid_iv` from the tradier chain. -/
structure Greeks where
  gamma : FV
  mid_iv : FV
deriving DecidableEq, Repr

/-- The fields of a tradier `OptionChain` contract that the analysis reads.
`strike` is kept as the exact rational value of the `f64`. -/
structure OptionContract where
  strike : ℚ
  expiration_date : String
  option_type : String
  open_interest : ℕ
  greeks : Option Greeks
deriving DecidableEq, Repr

/-- Calendar date triple as produced by `parse_date` (chrono validity checks
are outside the parsing claims). -/
structure SimpleDate where
  y : ℤ
  m : ℕ
  d : ℕ
deriving DecidableEq, Repr

/-- One row of the report: the strike key (text) and its exposure. -/
structure GammaExposure where
  strike : String
  gamma_exposure : FV
deriving DecidableEq, Repr

/-- The statistics report returned by `GammaExposureStats::new`. -/
structure GammaExposureStats where
  prices : List GammaExposure
  average_absolute_exposure : FV
  average_positive_exposure : FV
  average_negative_exposure : FV
  maximum : FV
  minimum : FV
  absolute_maximum : FV
  weighted_average_absolute_price : FV
  weighted_average_positive_price : FV
  weighted_average_negative_price : FV
deriving DecidableEq, Repr

/-- Report of the aggregate pipeline, keyed by the rational strike value
(see the header on key modelling). -/
structure GammaExposureStatsQ where
  prices : List (ℚ × FV)
  average_absolute_exposure : FV
  average_positive_exposure : FV
  average_negative_exposure : FV
  maximum : FV
  minimum : FV
  absolute_maximum : FV
  weighted_average_absolute_price : FV
  weighted_average_positive_price : FV
  weighted_average_negative_price : FV
deriving DecidableEq, Repr

/-- Lookup in an association-list map (model of `BTreeMap::get`). -/
def mlookup {κ : Type} [DecidableEq κ] : List (κ × FV) → κ → Option FV
  | [], _ => none
  | (k, v) :: rest, k0 => if k0 = k then some v else mlookup rest k0

/-- Model of the source's accumulation step: add to the existing entry via
`get_mut` when the key is present, otherwise `insert` the value. -/
def mapAdd {κ : Type} [DecidableEq κ] : List (κ × FV) → κ → FV → List (κ × FV)
  | [], k, v => [(k, v)]
  | (k0, v0) :: rest, k, v =>
      if k = k0 then (k0, fvAdd v0 v) :: rest else (k0, v0) :: mapAdd rest k v

/-- Key list of an association-list map. -/
def keysOf {κ : Type} (m : List (κ × FV)) : List κ := m.map Prod.fst

/-- Decimal digit test. -/
def isDigitChar (c : Char) : Bool := '0' ≤ c && c ≤ '9'

/-- Numeric value of a digit string (only meaningful when all characters are digits). -/
def digitsToNat (cs : List Char) : ℕ :=
  cs.foldl (fun n c => n * 10 + (c.toNat - 48)) 0

/-- Split a character list at the first dot. -/
def splitFrac : List Char → List Char × Option (List Char)
  | [] => ([], none)
  | c :: rest =>
      if c = '.' then ([], some rest)
      else
        let p := splitFrac rest
        (c :: p.1, p.2)

/-- Parser for the decimal fragment of `str::parse::<f64>`: digits with an
optional fractional part, at least one digit overall.  (The special forms
`inf`, `NaN` and exponent notation that Rust also accepts never occur in
the inputs of the claims.)  The value is exact; `f64` rounding of the
parsed literal is not modelled. -/
def parseFCore (cs : List Char) : Option ℚ :=
  let p := splitFrac cs
  let ip := p.1
  let fp := p.2.getD []
  if ip.all isDigitChar && fp.all isDigitChar && decide (0 < ip.length + fp.length) then
    some ((digitsToNat ip : ℚ) + (digitsToNat fp : ℚ) / ((10 : ℚ) ^ fp.length))
  else
    none

/-- Model of `str::parse::<f64>` on the inputs relevant to the claims,
including an optional leading sign. -/
def parseF (s : String) : Option ℚ :=
  match s.data with
  | '-' :: rest => (parseFCore rest).map Neg.neg
  | '+' :: rest => parseFCore rest
  | cs => parseFCore cs

/-- Byte-lexicographic order on UTF-8 text, as used by Rust's `String`
ordering; on scalar values this is character-lexicographic order. -/
def charListLe : List Char → List Char → Bool
  | [], _ => true
  | _ :: _, [] => false
  | a :: as, b :: bs => if a = b then charListLe as bs else decide (a < b)

/-- Model of Rust `String` `Ord` comparison used in `prices.sort_by`. -/
def strLe (a b : String) : Bool := charListLe a.data b.data

/-- Per-contract exposure of the Direct Exposure Aggregator, translated
from the loop body of `gamma_exposure_by_price` (guard `gamma > 1.0 ||
gamma < -1.0`, multiply by open interest, negate for puts). -/
def directExposureOf (o : OptionContract) (g : Greeks) : FV :=
  let exposure :=
    if fvGt g.gamma (num 1) || fvLt g.gamma (num (-1)) then num 0
    else fvMul g.gamma (num (o.open_interest : ℚ))
  if o.option_type = "put" then fvNeg exposure else exposure

/-- One loop iteration of `gamma_exposure_by_price`: contracts without
greeks are skipped, others accumulate into the map at their own strike. -/
def directStep (m : List (ℚ × FV)) (o : OptionContract) : List (ℚ × FV) :=
  match o.greeks with
  | some g => mapAdd m o.strike (directExposureOf o g)
  | none => m

/-- The Direct Exposure Aggregator `gamma_exposure_by_price`, with the
chain passed directly (the source fetches it from the tradier API first). -/
def gamma_exposure_by_price (options : List OptionContract) : List (ℚ × FV) :=
  options.foldl directStep []

/-- Running accumulator of `GammaExposureStats::new`, one field per local
mutable variable of the source. -/
structure StatsAcc where
  positive_sum : FV
  positive_count : ℕ
  negative_sum : FV
  negative_count : ℕ
  maximum : FV
  minimum : FV
  absolute_maximum : FV
  weighted_positive_sum : FV
  weighted_negative_sum : FV
deriving DecidableEq, Repr

/-- Initial accumulator values (all sums and extremes start at `0.0`). -/
def statsInit : StatsAcc :=
  ⟨num 0, 0, num 0, 0, num 0, num 0, num 0, num 0, num 0⟩

/-- Body of the summarizer loop for one `(strike, exposure)` entry, after
the strike key has been parsed to `strike`. -/
def statsStep (acc : StatsAcc) (strike : ℚ) (exposure : FV) : StatsAcc :=
  let acc1 :=
    if fvGe exposure (num 0) then
      { acc with
          positive_sum := fvAdd acc.positive_sum exposure,
          weighted_positive_sum :=
            fvAdd acc.weighted_positive_sum (fvMul (num strike) exposure),
          positive_count := acc.positive_count + 1 }
    else
      { acc with
          negative_sum := fvAdd acc.negative_sum exposure,
          weighted_negative_sum :=
            fvAdd acc.weighted_negative_sum (fvMul (num strike) exposure),
          negative_count := acc.negative_count + 1 }
  { acc1 with
      maximum := fvMax acc1.maximum exposure,
      minimum := fvMin acc1.minimum exposure,
      absolute_maximum := fvMax acc1.absolute_maximum (fvAbs exposure) }

/-- The summarizer loop: each key is parsed with `strike.parse()?`; a key
that fails to parse aborts with the error. -/
def statsFold : StatsAcc → List (String × FV) → Except String StatsAcc
  | acc, [] => .ok acc
  | acc, (strike, exposure) :: rest =>
      match parseF strike with
      | none => .error ("invalid float literal: " ++ strike)
      | some q => statsFold (statsStep acc q exposure) rest

/-- Translation of `GammaExposureStats::new` from the source.  The input list
stands for the `BTreeMap<String, f64>` in its iteration order (ascending
lexicographic keys); the running sums are order-independent so the theorems
below quantify over arbitrary entry lists.  `prices.sort_by(|p1, p2|
p1.strike.cmp(&p2.strike))` is a stable sort under string comparison,
modelled by insertion sort (stable, and equal for the duplicate-free key
lists a `BTreeMap` produces). -/
def GammaExposureStats.new (strike_to_gamma_exposure : List (String × FV)) :
    Except String GammaExposureStats :=
  match statsFold statsInit strike_to_gamma_exposure with
  | .error e => .error e
  | .ok acc =>
      let positive_count := max acc.positive_count 1
      let negative_count := max acc.negative_count 1
      let average_positive_exposure :=
        fvDiv acc.positive_sum (num (positive_count : ℚ))
      let average_negative_exposure :=
        fvDiv acc.negative_sum (num (negative_count : ℚ))
      let average_absolute_exposure :=
        fvDiv (fvAdd (fvAbs acc.positive_sum) (fvAbs acc.negative_sum))
          (num ((positive_count + negative_count : ℕ) : ℚ))
      let weighted_average_absolute_price :=
        fvDiv (fvAdd (fvAbs acc.weighted_positive_sum) (fvAbs acc.weighted_negative_sum))
          (fvAdd (fvAbs acc.positive_sum) (fvAbs acc.negative_sum))
      let weighted_average_positive_price :=
        fvDiv acc.weighted_positive_sum acc.positive_sum
      let weighted_average_negative_price :=
        fvDiv acc.weighted_negative_sum acc.negative_sum
      let prices :=
        List.insertionSort (fun a b : GammaExposure => strLe a.strike b.strike = true)
          (strike_to_gamma_exposure.map (fun e => GammaExposure.mk e.1 e.2))
      .ok
        ⟨prices, average_absolute_exposure, average_positive_exposure,
          average_negative_exposure, acc.maximum, acc.minimum,
          acc.absolute_maximum, weighted_average_absolute_price,
          weighted_average_positive_price, weighted_average_negative_price⟩

/-- Split a character list at every dash, like Rust `str::split("-")`. -/
def splitDash : List Char → List (List Char)
  | [] => [[]]
  | c :: rest =>
      if c = '-' then [] :: splitDash rest
      else
        match splitDash rest with
        | [] => [[c]]
        | p :: ps => (c :: p) :: ps

/-- Digits-only parse of a `u32` component (optional `+` sign, value bound
of the Rust type). -/
def parseU32Chars (cs : List Char) : Option ℕ :=
  let ds := match cs with
    | '+' :: rest => rest
    | other => other
  if ds.all isDigitChar && decide (0 < ds.length) && decide (digitsToNat ds < 2 ^ 32) then
    some (digitsToNat ds)
  else none

/-- Parse of an `i32` component (optional sign, value bound of the Rust type). -/
def parseI32Chars (cs : List Char) : Option ℤ :=
  match cs with
  | '-' :: rest =>
      if rest.all isDigitChar && decide (0 < rest.length)
          && decide (digitsToNat rest ≤ 2 ^ 31) then
        some (-(digitsToNat rest : ℤ))
      else none
  | _ =>
      let ds := match cs with
        | '+' :: rest => rest
        | other => other
      if ds.all isDigitChar && decide (0 < ds.length) && decide (digitsToNat ds < 2 ^ 31) then
        some (digitsToNat ds)
      else none

/-- Translation of `parse_date` from the source: split on `-`, parse year,
month, day in turn, each failure propagating immediately.  (chrono's
`Local.ymd` panic on out-of-range components is beyond the parsing
behaviour the claims describe and is not modelled.) -/
def parse_date (date : String) : Except String SimpleDate :=
  match splitDash date.data with
  | [] => .error "Invalid year"
  | ys :: rest =>
      match parseI32Chars ys with
      | none => .error "invalid year digits"
      | some y =>
          match rest with
          | [] => .error "Invalid month"
          | ms :: rest2 =>
              match parseU32Chars ms with
              | none => .error "invalid month digits"
              | some m =>
                  match rest2 with
                  | [] => .error "Invalid day"
                  | ds :: _ =>
                      match parseU32Chars ds with
                      | none => .error "invalid day digits"
                      | some d => .ok ⟨y, m, d⟩

/-- Day number of a civil date (days since 1970-01-01), standard civil
calendar arithmetic; models chrono's day difference between two dates. -/
def daysFromCivil (dt : SimpleDate) : ℤ :=
  let adjY : ℤ := if dt.m ≤ 2 then dt.y - 1 else dt.y
  let era : ℤ := Int.fdiv adjY 400
  let yoe : ℤ := adjY - era * 400
  let mp : ℤ := Int.emod ((dt.m : ℤ) + 9) 12
  let doy : ℤ := Int.fdiv (153 * mp + 2) 5 + (dt.d : ℤ) - 1
  let doe : ℤ := yoe * 365 + Int.fdiv yoe 4 - Int.fdiv yoe 100 + doy
  era * 146097 + doe - 719468

/-- Saturating cast `as u64` applied to an `f64` value times 100, and the
PriceGrid construction of `gamma_exposure_aggregate`: distinct values of
`(strike * 100.0) as u64`, mapped back through `as f64 / 100.0`.  (The
`HashSet` iteration order is arbitrary; the claims are order-independent.) -/
def satCastU64 (q : ℚ) : ℕ :=
  if q < 0 then 0 else min q.floor.toNat (2 ^ 64 - 1)

/-- The PriceGrid of `gamma_exposure_aggregate`. -/
def gridStrikes (options : List OptionContract) : List ℚ :=
  ((options.map (fun o => satCastU64 (o.strike * 100))).dedup).map
    (fun n : ℕ => (n : ℚ) / 100)

/-- Guarded exposure of one `(contract, grid price)` pair of the Model
Aggregate Builder, given the gamma value `g` returned by the pricing
model; translated from the inner loop of `gamma_exposure_aggregate`
(guard `gamma > 1.0 || gamma < -1.0 || gamma.is_nan()`). -/
def aggExposureOf (o : OptionContract) (g : FV) : FV :=
  let exposure :=
    if fvGt g (num 1) || fvLt g (num (-1)) || g.isNan then num 0
    else fvMul g (num (o.open_interest : ℚ))
  if o.option_type = "put" then fvNeg exposure else exposure

/-- Gamma of one `(contract, grid price)` pair: the source calls
`gamma(sigma, expiration_time, current_time, *price, strike)` with
`sigma = greeks.mid_iv` or `0.0`, `expiration_time = days_remaining / 365`
and `current_time = 0.0`. -/
def aggGammaAt (gammaFn : FV → FV → FV → FV → FV → FV) (o : OptionContract)
    (days_remaining : ℤ) (price : ℚ) : FV :=
  let sigma := (o.greeks.map Greeks.mid_iv).getD (num 0)
  let expiration_time := num ((days_remaining : ℚ) / 365)
  gammaFn sigma expiration_time (num 0) (num price) (num o.strike)

/-- Processing of one contract by `gamma_exposure_aggregate`: parse the
expiration date (propagating failure), then for every grid price
accumulate the guarded exposure into the map under the contract's own
strike (`strike_string` in the source). -/
def aggStep (gammaFn : FV → FV → FV → FV → FV → FV) (now : SimpleDate)
    (gs : List ℚ) (m : List (ℚ × FV)) (o : OptionContract) :
    Except String (List (ℚ × FV)) :=
  match parse_date o.expiration_date with
  | .error e => .error e
  | .ok ed =>
      let days_remaining := daysFromCivil ed - daysFromCivil now
      .ok (gs.foldl
        (fun acc price =>
          mapAdd acc o.strike (aggExposureOf o (aggGammaAt gammaFn o days_remaining price)))
        m)

/-- The exposure map built by `gamma_exposure_aggregate` before the
statistics step. -/
def gamma_exposure_aggregate_map (gammaFn : FV → FV → FV → FV → FV → FV)
    (now : SimpleDate) (options : List OptionContract) :
    Except String (List (ℚ × FV)) :=
  options.foldlM (aggStep gammaFn now (gridStrikes options)) []

/-- Statistics of the aggregate pipeline.  The map keys are already
numeric in the model (they are `to_string` renderings in the source, whose
re-parse in `GammaExposureStats::new` always succeeds because `f64`
rendering round-trips); the entries are kept in map order. -/
def GammaExposureStatsQ.new (m : List (ℚ × FV)) : GammaExposureStatsQ :=
  let acc := m.foldl (fun acc e => statsStep acc e.1 e.2) statsInit
  let positive_count := max acc.positive_count 1
  let negative_count := max acc.negative_count 1
  ⟨m,
    fvDiv (fvAdd (fvAbs acc.positive_sum) (fvAbs acc.negative_sum))
      (num ((positive_count + negative_count : ℕ) : ℚ)),
    fvDiv acc.positive_sum (num (positive_count : ℚ)),
    fvDiv acc.negative_sum (num (negative_count : ℚ)),
    acc.maximum, acc.minimum, acc.absolute_maximum,
    fvDiv (fvAdd (fvAbs acc.weighted_positive_sum) (fvAbs acc.weighted_negative_sum))
      (fvAdd (fvAbs acc.positive_sum) (fvAbs acc.negative_sum)),
    fvDiv acc.weighted_positive_sum acc.positive_sum,
    fvDiv acc.weighted_negative_sum acc.negative_sum⟩

/-- Translation of `gamma_exposure_aggregate`: build the aggregate map, then summarize it. -/
def gamma_exposure_aggregate (gammaFn : FV → FV → FV → FV → FV → FV)
    (now : SimpleDate) (options : List OptionContract) :
    Except String GammaExposureStatsQ :=
  match gamma_exposure_aggregate_map gammaFn now options with
  | .error e => .error e
  | .ok m => .ok (GammaExposureStatsQ.new m)

theorem mlookup_mapAdd_self {κ : Type} [DecidableEq κ] (m : List (κ × FV)) (k : κ) (v : FV) :
    mlookup (mapAdd m k v) k =
      some (match mlookup m k with
        | none => v
        | some e => fvAdd e v) := by
  induction m with
  | nil => simp [mapAdd, mlookup]
  | cons hd tl ih =>
      obtain ⟨k0, v0⟩ := hd
      by_cases h : k = k0
      · subst h
        simp [mapAdd, mlookup]
      · simp [mapAdd, mlookup, h, ih]

theorem mlookup_mapAdd_ne {κ : Type} [DecidableEq κ] (m : List (κ × FV)) (k k1 : κ) (v : FV)
    (h : k1 ≠ k) : mlookup (mapAdd m k v) k1 = mlookup m k1 := by
  induction m with
  | nil => simp [mapAdd, mlookup, h]
  | cons hd tl ih =>
      obtain ⟨k0, v0⟩ := hd
      by_cases h0 : k = k0
      · subst h0
        simp [mapAdd, mlookup, h]
      · by_cases h1 : k1 = k0
        · subst h1
          simp [mapAdd, mlookup, h0]
        · simp [mapAdd, mlookup, h0, h1, ih]

theorem mem_keys_mapAdd {κ : Type} [DecidableEq κ] (m : List (κ × FV)) (k s : κ) (v : FV) :
    s ∈ keysOf (mapAdd m k v) ↔ s = k ∨ s ∈ keysOf m := by
  induction m with
  | nil => simp [mapAdd, keysOf]
  | cons hd tl ih =>
      obtain ⟨k0, v0⟩ := hd
      by_cases h : k = k0
      · subst h
        simp [mapAdd, keysOf]
      · simp [mapAdd, keysOf, h] at ih ⊢
        tauto

theorem keys_mapAdd_list {κ : Type} [DecidableEq κ] (m : List (κ × FV)) (k : κ) (v : FV) :
    keysOf (mapAdd m k v) = if k ∈ keysOf m then keysOf m else keysOf m ++ [k] := by
  induction m with
  | nil => simp [mapAdd, keysOf]
  | cons hd tl ih =>
      obtain ⟨k0, v0⟩ := hd
      by_cases h : k = k0
      · subst h
        simp [mapAdd, keysOf]
      · simp only [mapAdd, if_neg h, keysOf, List.map_cons, List.mem_cons]
        rw [show List.map Prod.fst (mapAdd tl k v) = keysOf (mapAdd tl k v) from rfl, ih]
        simp only [keysOf]
        by_cases hmem : k ∈ List.map Prod.fst tl
        · simp [hmem]
        · simp [hmem, h]

/-- Accumulation of a list of contributions into an optional map cell,
mirroring how repeated `get_mut`/`insert` steps build up one entry. -/
def addInto : Option FV → List FV → Option FV
  | acc, [] => acc
  | none, c :: cs => addInto (some c) cs
  | some e, c :: cs => addInto (some (fvAdd e c)) cs

theorem addInto_some (cs : List FV) : ∀ e, addInto (some e) cs = some (cs.foldl fvAdd e) := by
  induction cs with
  | nil => intro e; rfl
  | cons c cs ih => intro e; simp [addInto, List.foldl, ih]

theorem foldl_fvAdd_nan (cs : List FV) : cs.foldl fvAdd FV.nan = FV.nan := by
  induction cs with
  | nil => rfl
  | cons c cs ih => simp [List.foldl, fvAdd_nan_left, ih]

theorem addInto_nan (cs1 : List FV) : ∀ (cs2 : List FV) (acc : Option FV),
    addInto acc (cs1 ++ FV.nan :: cs2) = some FV.nan := by
  induction cs1 with
  | nil =>
      intro cs2 acc
      cases acc with
      | none => simp [addInto, addInto_some, foldl_fvAdd_nan]
      | some e => simp [addInto, fvAdd_nan_right, addInto_some, foldl_fvAdd_nan]
  | cons c cs1 ih =>
      intro cs2 acc
      cases acc with
      | none => simpa [addInto] using ih cs2 (some c)
      | some e => simpa [addInto] using ih cs2 (some (fvAdd e c))

/-- Contributions that the contracts of a chain make at strike `s` in the
Direct Exposure Aggregator, in chain order. -/
def directContribs (options : List OptionContract) (s : ℚ) : List FV :=
  options.filterMap (fun o => o.greeks.bind
    (fun g => if o.strike = s then some (directExposureOf o g) else none))

/-- The contribution of one contract, written with the specification's
`|gamma| > 1` guard formulation. -/
def directExposureSpec (o : OptionContract) (g : Greeks) : FV :=
  let exposure :=
    if fvGt (fvAbs g.gamma) (num 1) then num 0
    else fvMul g.gamma (num (o.open_interest : ℚ))
  if o.option_type = "put" then fvNeg exposure else exposure

/-- Per-strike contribution lists, with the specification's guard formulation. -/
def directContribsSpec (options : List OptionContract) (s : ℚ) : List FV :=
  options.filterMap (fun o => o.greeks.bind
    (fun g => if o.strike = s then some (directExposureSpec o g) else none))

theorem directExposureOf_eq_spec (o : OptionContract) (g : Greeks) :
    directExposureOf o g = directExposureSpec o g := by
  unfold directExposureOf directExposureSpec
  rw [guard_abs_eq]

theorem directContribs_eq_spec (options : List OptionContract) (s : ℚ) :
    directContribs options s = directContribsSpec options s := by
  unfold directContribs directContribsSpec
  simp [directExposureOf_eq_spec]

theorem mlookup_foldl_directStep (options : List OptionContract) : ∀ (m : List (ℚ × FV)) (s : ℚ),
    mlookup (options.foldl directStep m) s = addInto (mlookup m s) (directContribs options s) := by
  induction options with
  | nil => intro m s; simp [directContribs, addInto]
  | cons o rest ih =>
      intro m s
      cases hg : o.greeks with
      | none =>
          have hstep : directStep m o = m := by simp [directStep, hg]
          have hcontribs : directContribs (o :: rest) s = directContribs rest s := by
            simp [directContribs, List.filterMap_cons, hg]
          rw [List.foldl_cons, hstep, hcontribs, ih]
      | some g =>
          by_cases hs : o.strike = s
          · have hstep : directStep m o = mapAdd m s (directExposureOf o g) := by
              simp [directStep, hg, hs]
            have hcontribs : directContribs (o :: rest) s =
                directExposureOf o g :: directContribs rest s := by
              simp [directContribs, List.filterMap_cons, hg, hs]
            rw [List.foldl_cons, hstep, hcontribs, ih, mlookup_mapAdd_self]
            rcases hm : mlookup m s with _ | e <;> rfl
          · have hstep : directStep m o = mapAdd m o.strike (directExposureOf o g) := by
              simp [directStep, hg]
            have hcontribs : directContribs (o :: rest) s = directContribs rest s := by
              simp [directContribs, List.filterMap_cons, hg, hs]
            rw [List.foldl_cons, hstep, hcontribs, ih,
              mlookup_mapAdd_ne _ _ _ _ (fun hc => hs hc.symm)]

theorem mem_keys_foldl_directStep (options : List OptionContract) :
    ∀ (m : List (ℚ × FV)) (s : ℚ),
    s ∈ keysOf (options.foldl directStep m) ↔
      s ∈ keysOf m ∨ ∃ o ∈ options, o.greeks.isSome ∧ o.strike = s := by
  induction options with
  | nil => intro m s; simp
  | cons o rest ih =>
      intro m s
      cases hg : o.greeks with
      | none =>
          rw [List.foldl_cons, show directStep m o = m from by simp [directStep, hg], ih]
          constructor
          · rintro (h | ⟨x, hx, h1, h2⟩)
            · exact Or.inl h
            · exact Or.inr ⟨x, List.mem_cons_of_mem _ hx, h1, h2⟩
          · rintro (h | ⟨x, hx, h1, h2⟩)
            · exact Or.inl h
            · rcases List.mem_cons.mp hx with rfl | hx2
              · rw [hg] at h1; simp at h1
              · exact Or.inr ⟨x, hx2, h1, h2⟩
      | some g =>
          rw [List.foldl_cons,
            show directStep m o = mapAdd m o.strike (directExposureOf o g) from by
              simp [directStep, hg],
            ih, mem_keys_mapAdd]
          constructor
          · rintro ((h | h) | ⟨x, hx, h1, h2⟩)
            · exact Or.inr ⟨o, List.mem_cons_self o rest, by simp [hg], h.symm⟩
            · exact Or.inl h
            · exact Or.inr ⟨x, List.mem_cons_of_mem _ hx, h1, h2⟩
          · rintro (h | ⟨x, hx, h1, h2⟩)
            · exact Or.inl (Or.inr h)
            · rcases List.mem_cons.mp hx with rfl | hx2
              · exact Or.inl (Or.inl h2.symm)
              · exact Or.inr ⟨x, hx2, h1, h2⟩

/-- C4: for every option chain, the Direct Exposure Aggregator's output
map has as keys exactly the strikes of contracts whose greeks are present,
and the value at each key is the sum, over the contracts at that strike,
of `greeks.gamma * open_interest`, replaced by `0` when `|greeks.gamma| >
1` and negated for puts. -/
theorem direct_aggregator_characterization (options : List OptionContract) :
    (∀ s, s ∈ keysOf (gamma_exposure_by_price options) ↔
        ∃ o ∈ options, o.greeks.isSome ∧ o.strike = s)
    ∧ (∀ s, mlookup (gamma_exposure_by_price options) s =
        match directContribsSpec options s with
        | [] => none
        | c :: cs => some ((c :: cs).foldl fvAdd (num 0))) := by
  constructor
  · intro s
    rw [gamma_exposure_by_price, mem_keys_foldl_directStep]
    simp [keysOf]
  · intro s
    rw [gamma_exposure_by_price, mlookup_foldl_directStep, directContribs_eq_spec]
    rcases hcs : directContribsSpec options s with _ | ⟨c, cs⟩
    · rfl
    · show addInto none (c :: cs) = _
      rw [show addInto none (c :: cs) = addInto (some c) cs from rfl, addInto_some]
      simp [List.foldl, fvAdd_zero_left]

/-- C8: changing a contract's `option_type` from call to put negates its
contribution to the Direct Exposure Aggregator's map, holding gamma, open
interest and strike fixed; shown both for the per-contract exposure and
for the resulting map cell of a one-contract chain. -/
theorem put_negates_contribution (strike : ℚ) (ed : String) (oi : ℕ) (g iv : FV) :
    (directExposureOf ⟨strike, ed, "put", oi, some ⟨g, iv⟩⟩ ⟨g, iv⟩ =
      fvNeg (directExposureOf ⟨strike, ed, "call", oi, some ⟨g, iv⟩⟩ ⟨g, iv⟩))
    ∧ (mlookup (gamma_exposure_by_price [⟨strike, ed, "put", oi, some ⟨g, iv⟩⟩]) strike =
        (mlookup (gamma_exposure_by_price [⟨strike, ed, "call", oi, some ⟨g, iv⟩⟩]) strike).map
          fvNeg) := by
  have h1 : directExposureOf ⟨strike, ed, "put", oi, some ⟨g, iv⟩⟩ ⟨g, iv⟩ =
      fvNeg (directExposureOf ⟨strike, ed, "call", oi, some ⟨g, iv⟩⟩ ⟨g, iv⟩) := by
    simp [directExposureOf]
  refine ⟨h1, ?_⟩
  simp [gamma_exposure_by_price, directStep, mapAdd, mlookup, h1]

/-- C10: a NaN reported gamma passes the Direct Aggregator's guard (which
only fires on `gamma > 1.0` or `gamma < -1.0`), so its contribution is NaN
and the map value at its strike becomes NaN, whereas the Model Aggregate
Builder's guard additionally zeroes a NaN model gamma. -/
theorem nan_gamma_guard_difference (strike : ℚ) (ed ot : String) (oi : ℕ) (iv : FV)
    (xs ys : List OptionContract) :
    (fvGt FV.nan (num 1) || fvLt FV.nan (num (-1))) = false
    ∧ directExposureOf ⟨strike, ed, ot, oi, some ⟨FV.nan, iv⟩⟩ ⟨FV.nan, iv⟩ = FV.nan
    ∧ mlookup
        (gamma_exposure_by_price (xs ++ ⟨strike, ed, ot, oi, some ⟨FV.nan, iv⟩⟩ :: ys))
        strike = some FV.nan
    ∧ aggExposureOf ⟨strike, ed, ot, oi, some ⟨FV.nan, iv⟩⟩ FV.nan = num 0 := by
  have hexp : directExposureOf ⟨strike, ed, ot, oi, some ⟨FV.nan, iv⟩⟩ ⟨FV.nan, iv⟩ = FV.nan := by
    by_cases h : ot = "put" <;> simp [directExposureOf, fvGt, fvLt, fvMul, fvNeg, h]
  refine ⟨rfl, hexp, ?_, ?_⟩
  · rw [gamma_exposure_by_price, mlookup_foldl_directStep]
    have hsplit : directContribs
        (xs ++ ⟨strike, ed, ot, oi, some ⟨FV.nan, iv⟩⟩ :: ys) strike =
        directContribs xs strike ++ FV.nan :: directContribs ys strike := by
      unfold directContribs
      rw [List.filterMap_append, List.filterMap_cons]
      simp [hexp]
    rw [hsplit, addInto_nan]
  · by_cases h : ot = "put" <;>
      simp [aggExposureOf, isNan, fvNeg, h]

instance exceptDecEq {ε α : Type} [DecidableEq ε] [DecidableEq α] :
    DecidableEq (Except ε α)
  | .error a, .error b =>
      if h : a = b then isTrue (by rw [h])
      else isFalse (fun hc => h (by cases hc; rfl))
  | .error _, .ok _ => isFalse (fun hc => Except.noConfusion hc)
  | .ok _, .error _ => isFalse (fun hc => Except.noConfusion hc)
  | .ok a, .ok b =>
      if h : a = b then isTrue (by rw [h])
      else isFalse (fun hc => h (by cases hc; rfl))

theorem statsStep_maximum (acc : StatsAcc) (q : ℚ) (e : FV) :
    (statsStep acc q e).maximum = fvMax acc.maximum e := by
  unfold statsStep
  split <;> rfl

theorem statsStep_minimum (acc : StatsAcc) (q : ℚ) (e : FV) :
    (statsStep acc q e).minimum = fvMin acc.minimum e := by
  unfold statsStep
  split <;> rfl

theorem statsFold_max_zero (m : List (String × FV)) : ∀ (acc acc1 : StatsAcc),
    statsFold acc m = .ok acc1 → (∀ e ∈ m, fvLt e.2 (num 0) = true) →
    acc.maximum = num 0 → acc1.maximum = num 0 := by
  induction m with
  | nil =>
      intro acc acc1 hok _ hmax
      cases hok
      exact hmax
  | cons hd tl ih =>
      intro acc acc1 hok hneg hmax
      obtain ⟨k, e⟩ := hd
      rw [statsFold] at hok
      cases hp : parseF k with
      | none => rw [hp] at hok; cases hok
      | some q =>
          rw [hp] at hok
          refine ih _ _ hok (fun x hx => hneg x (List.mem_cons_of_mem _ hx)) ?_
          rw [statsStep_maximum, hmax]
          exact fvMax_zero_of_neg e (hneg (k, e) (List.mem_cons_self _ _))

theorem statsFold_min_zero (m : List (String × FV)) : ∀ (acc acc1 : StatsAcc),
    statsFold acc m = .ok acc1 → (∀ e ∈ m, fvGe e.2 (num 0) = true) →
    acc.minimum = num 0 → acc1.minimum = num 0 := by
  induction m with
  | nil =>
      intro acc acc1 hok _ hmin
      cases hok
      exact hmin
  | cons hd tl ih =>
      intro acc acc1 hok hpos hmin
      obtain ⟨k, e⟩ := hd
      rw [statsFold] at hok
      cases hp : parseF k with
      | none => rw [hp] at hok; cases hok
      | some q =>
          rw [hp] at hok
          refine ih _ _ hok (fun x hx => hpos x (List.mem_cons_of_mem _ hx)) ?_
          rw [statsStep_minimum, hmin]
          exact fvMin_zero_of_nonneg e (hpos (k, e) (List.mem_cons_self _ _))

theorem new_ok_extremes (m : List (String × FV)) (r : GammaExposureStats)
    (h : GammaExposureStats.new m = .ok r) :
    ∃ acc, statsFold statsInit m = .ok acc
      ∧ r.maximum = acc.maximum ∧ r.minimum = acc.minimum := by
  unfold GammaExposureStats.new at h
  cases hf : statsFold statsInit m with
  | error e => rw [hf] at h; cases h
  | ok acc =>
      rw [hf] at h
      refine ⟨acc, rfl, ?_, ?_⟩ <;> · cases h; rfl

/-- C7: the summarizer seeds `minimum`/`maximum` at `0.0`, so a map whose
entries are all strictly negative reports `maximum = 0.0`, and a map whose
entries all compare `>= 0.0` reports `minimum = 0.0`. -/
theorem zero_seeded_extremes (m : List (String × FV)) (r : GammaExposureStats)
    (hok : GammaExposureStats.new m = .ok r) :
    ((∀ e ∈ m, fvLt e.2 (num 0) = true) → r.maximum = num 0)
    ∧ ((∀ e ∈ m, fvGe e.2 (num 0) = true) → r.minimum = num 0) := by
  obtain ⟨acc, hf, hmax, hmin⟩ := new_ok_extremes m r hok
  constructor
  · intro hneg
    rw [hmax]
    exact statsFold_max_zero m statsInit acc hf hneg rfl
  · intro hpos
    rw [hmin]
    exact statsFold_min_zero m statsInit acc hf hpos rfl

/-- Witness for C7 at the concrete all-negative map `{"50": -1.0}`. -/
theorem zero_seeded_extremes_witness :
    GammaExposureStats.new [("50", FV.num (-1))] =
      .ok ⟨[⟨"50", FV.num (-1)⟩], num (1/2), num 0, num (-1), num 0, num (-1),
        num 1, num 50, FV.nan, num 50⟩
    ∧ (⟨[⟨"50", FV.num (-1)⟩], num (1/2), num 0, num (-1), num 0, num (-1),
        num 1, num 50, FV.nan, num 50⟩ : GammaExposureStats).maximum = num 0 :=
  ⟨by with_unfolding_all rfl,
    (zero_seeded_extremes [("50", FV.num (-1))] _ (by with_unfolding_all rfl)).1
      (by with_unfolding_all decide)⟩

/-- C2 (refuting): on the empty exposure map `GammaExposureStats::new`
does not signal any degeneracy error; it returns a report whose simple
fields are zero and whose weighted-average prices are the NaN of `0.0/0.0`. -/
theorem summarizer_no_degeneracy_error :
    GammaExposureStats.new [] =
      .ok ⟨[], num 0, num 0, num 0, num 0, num 0, num 0, FV.nan, FV.nan, FV.nan⟩ := by
  with_unfolding_all rfl

/-- C3 (refuting): the summarizer orders the `prices` series by comparing
the textual keys, so for the map with keys `"100"` and `"20"` (numeric
values 100 and 20) the row for `"100"` comes first although `20 < 100`. -/
theorem summarizer_sorts_lexicographically :
    (GammaExposureStats.new [("100", FV.num 1), ("20", FV.num 2)]).map
        (fun r => r.prices.map GammaExposure.strike) = .ok ["100", "20"]
    ∧ parseF "100" = some 100 ∧ parseF "20" = some 20 ∧ (20 : ℚ) < 100 := by
  refine ⟨by with_unfolding_all rfl, by with_unfolding_all rfl,
    by with_unfolding_all rfl, by norm_num⟩

/-- C6: the summarizer on the single-entry map `{"100": 5.0}` reports
`average_positive_exposure = 5`, `average_negative_exposure = 0`,
`maximum = 5`, `minimum = 0`, `absolute_maximum = 5` and
`weighted_average_positive_price = 100`. -/
theorem single_entry_summary :
    (GammaExposureStats.new [("100", FV.num 5)]).map
        (fun r => (r.average_positive_exposure, r.average_negative_exposure,
          r.maximum, r.minimum, r.absolute_maximum,
          r.weighted_average_positive_price)) =
      .ok (num 5, num 0, num 5, num 0, num 5, num 100) := by
  with_unfolding_all rfl

theorem statsFold_error_of_badkey (m : List (String × FV)) : ∀ (acc : StatsAcc),
    (∃ e ∈ m, parseF e.1 = none) → ∃ msg, statsFold acc m = .error msg := by
  induction m with
  | nil =>
      intro acc hbad
      rcases hbad with ⟨e, he, _⟩
      cases he
  | cons hd tl ih =>
      intro acc hbad
      obtain ⟨k, e⟩ := hd
      cases hp : parseF k with
      | none => exact ⟨"invalid float literal: " ++ k, by rw [statsFold, hp]⟩
      | some q =>
          rcases hbad with ⟨x, hx, hxp⟩
          rcases List.mem_cons.mp hx with rfl | hx2
          · rw [hp] at hxp; cases hxp
          · rcases ih (statsStep acc q e) ⟨x, hx2, hxp⟩ with ⟨msg, hmsg⟩
            refine ⟨msg, ?_⟩
            rw [statsFold, hp]
            exact hmsg

theorem aggFoldlM_error_of_baddate (options : List OptionContract)
    (gammaFn : FV → FV → FV → FV → FV → FV) (now : SimpleDate) (gs : List ℚ) :
    ∀ (m : List (ℚ × FV)),
    (∃ o ∈ options, (parse_date o.expiration_date).toOption = none) →
    ∃ msg, List.foldlM (aggStep gammaFn now gs) m options = .error msg := by
  induction options with
  | nil =>
      intro m hbad
      rcases hbad with ⟨o, ho, _⟩
      cases ho
  | cons o rest ih =>
      intro m hbad
      cases hp : parse_date o.expiration_date with
      | error e =>
          refine ⟨e, ?_⟩
          rw [List.foldlM_cons, aggStep, hp]
          rfl
      | ok ed =>
          rcases hbad with ⟨x, hx, hxp⟩
          rcases List.mem_cons.mp hx with rfl | hx2
          · rw [hp] at hxp; cases hxp
          · rcases ih _ ⟨x, hx2, hxp⟩ with ⟨msg, hmsg⟩
            refine ⟨msg, ?_⟩
            rw [List.foldlM_cons, aggStep, hp]
            exact hmsg

/-- C9: a price key that fails to parse as a number makes the summarizer
return an error, and a contract whose expiration date fails to parse makes
the aggregate computation return an error; in both cases no report is
produced. -/
theorem parse_failures_abort :
    (∀ entries : List (String × FV), (∃ e ∈ entries, parseF e.1 = none) →
        (GammaExposureStats.new entries).toOption = none)
    ∧ (∀ (gammaFn : FV → FV → FV → FV → FV → FV) (now : SimpleDate)
        (options : List OptionContract),
        (∃ o ∈ options, (parse_date o.expiration_date).toOption = none) →
        (gamma_exposure_aggregate gammaFn now options).toOption = none) := by
  constructor
  · intro entries hbad
    rcases statsFold_error_of_badkey entries statsInit hbad with ⟨msg, hmsg⟩
    unfold GammaExposureStats.new
    rw [hmsg]
    rfl
  · intro gammaFn now options hbad
    rcases aggFoldlM_error_of_baddate options gammaFn now (gridStrikes options) [] hbad
      with ⟨msg, hmsg⟩
    unfold gamma_exposure_aggregate gamma_exposure_aggregate_map
    rw [hmsg]
    rfl

/-- Witness for C9: the unparseable key `"abc"` and the unparseable date
`"nope"` each abort their pipeline. -/
theorem parse_failures_abort_witness :
    (GammaExposureStats.new [("abc", FV.num 1)]).toOption = none
    ∧ (gamma_exposure_aggregate (fun _ _ _ _ _ => FV.num 0) ⟨2021, 1, 1⟩
        [⟨100, "nope", "call", 0, none⟩]).toOption = none :=
  ⟨parse_failures_abort.1 _ (by with_unfolding_all decide),
    parse_failures_abort.2 _ _ _ (by with_unfolding_all decide)⟩

theorem keys_fold_mem (gs : List ℚ) : ∀ (m : List (ℚ × FV)) (k : ℚ) (f : ℚ → FV),
    k ∈ keysOf m →
    keysOf (gs.foldl (fun acc p => mapAdd acc k (f p)) m) = keysOf m := by
  induction gs with
  | nil => intro m k f _; rfl
  | cons p ps ih =>
      intro m k f hk
      rw [List.foldl_cons]
      have hkeys : keysOf (mapAdd m k (f p)) = keysOf m := by
        rw [keys_mapAdd_list, if_pos hk]
      rw [ih _ _ _ (by rw [hkeys]; exact hk), hkeys]

theorem keys_inner_fold (gs : List ℚ) (hgs : gs ≠ []) (m : List (ℚ × FV)) (k : ℚ)
    (f : ℚ → FV) :
    keysOf (gs.foldl (fun acc p => mapAdd acc k (f p)) m) =
      if k ∈ keysOf m then keysOf m else keysOf m ++ [k] := by
  cases gs with
  | nil => exact absurd rfl hgs
  | cons p ps =>
      rw [List.foldl_cons]
      have hk : k ∈ keysOf (mapAdd m k (f p)) := (mem_keys_mapAdd m k k (f p)).mpr (Or.inl rfl)
      rw [keys_fold_mem ps _ _ _ hk, keys_mapAdd_list]

/-- Key-set evolution of the aggregate loop: each processed contract adds
its own strike as a key if not already present. -/
def ksUpdate (ks : List ℚ) (o : OptionContract) : List ℚ :=
  if o.strike ∈ ks then ks else ks ++ [o.strike]

theorem keys_aggFoldlM (options : List OptionContract)
    (gammaFn : FV → FV → FV → FV → FV → FV) (now : SimpleDate) (gs : List ℚ)
    (hgs : gs ≠ []) : ∀ (m m1 : List (ℚ × FV)),
    List.foldlM (aggStep gammaFn now gs) m options = .ok m1 →
    keysOf m1 = options.foldl ksUpdate (keysOf m) := by
  induction options with
  | nil =>
      intro m m1 h
      rw [List.foldlM_nil] at h
      cases h
      rfl
  | cons o rest ih =>
      intro m m1 h
      rw [List.foldlM_cons] at h
      cases hp : parse_date o.expiration_date with
      | error e =>
          rw [aggStep, hp] at h
          exact Except.noConfusion h
      | ok ed =>
          rw [aggStep, hp] at h
          have h2 : List.foldlM (aggStep gammaFn now gs)
              (gs.foldl (fun acc price => mapAdd acc o.strike
                (aggExposureOf o (aggGammaAt gammaFn o
                  (daysFromCivil ed - daysFromCivil now) price))) m) rest = .ok m1 := h
          rw [List.foldl_cons, ih _ _ h2,
            keys_inner_fold gs hgs m o.strike
              (fun price => aggExposureOf o (aggGammaAt gammaFn o
                (daysFromCivil ed - daysFromCivil now) price))]
          rfl

theorem mem_foldl_ksUpdate (opts : List OptionContract) : ∀ (ks : List ℚ) (s : ℚ),
    s ∈ opts.foldl ksUpdate ks ↔ s ∈ ks ∨ ∃ o ∈ opts, o.strike = s := by
  induction opts with
  | nil => intro ks s; simp
  | cons o rest ih =>
      intro ks s
      rw [List.foldl_cons, ih]
      have hupd : s ∈ ksUpdate ks o ↔ s ∈ ks ∨ s = o.strike := by
        unfold ksUpdate
        by_cases h : o.strike ∈ ks
        · rw [if_pos h]
          constructor
          · exact fun hs => Or.inl hs
          · rintro (hs | rfl)
            · exact hs
            · exact h
        · rw [if_neg h, List.mem_append, List.mem_singleton]
      rw [hupd]
      constructor
      · rintro ((hs | rfl) | ⟨x, hx, hxs⟩)
        · exact Or.inl hs
        · exact Or.inr ⟨o, List.mem_cons_self o rest, rfl⟩
        · exact Or.inr ⟨x, List.mem_cons_of_mem _ hx, hxs⟩
      · rintro (hs | ⟨x, hx, hxs⟩)
        · exact Or.inl (Or.inl hs)
        · rcases List.mem_cons.mp hx with rfl | hx2
          · exact Or.inl (Or.inr hxs.symm)
          · exact Or.inr ⟨x, hx2, hxs⟩

theorem gridStrikes_ne_nil (options : List OptionContract) (h : options ≠ []) :
    gridStrikes options ≠ [] := by
  unfold gridStrikes
  intro hc
  rw [List.map_eq_nil_iff, List.dedup_eq_nil, List.map_eq_nil_iff] at hc
  exact h hc

/-- C1 (amended): the Model Aggregate Builder accumulates every
contract-times-grid-price contribution under the contract's own strike
(not the grid price), so the key set of the resulting map is the set of
distinct strikes of the contracts themselves, in first-occurrence order. -/
theorem aggregate_keys_own_strike (gammaFn : FV → FV → FV → FV → FV → FV)
    (now : SimpleDate) (options : List OptionContract) (m : List (ℚ × FV))
    (h : gamma_exposure_aggregate_map gammaFn now options = .ok m) :
    keysOf m = options.foldl ksUpdate []
    ∧ ∀ s, s ∈ keysOf m ↔ ∃ o ∈ options, o.strike = s := by
  have hkeys : keysOf m = options.foldl ksUpdate [] := by
    cases options with
    | nil =>
        unfold gamma_exposure_aggregate_map at h
        rw [List.foldlM_nil] at h
        cases h
        rfl
    | cons o rest =>
        have hgs : gridStrikes (o :: rest) ≠ [] := gridStrikes_ne_nil _ (by simp)
        unfold gamma_exposure_aggregate_map at h
        exact keys_aggFoldlM (o :: rest) gammaFn now _ hgs [] m h
  refine ⟨hkeys, fun s => ?_⟩
  rw [hkeys, mem_foldl_ksUpdate]
  simp

/-- Constant-zero stand-in for the unseen pricing model, used to run the
aggregate builder on concrete chains (its keying behaviour does not depend
on the gamma values). -/
def gammaZero : FV → FV → FV → FV → FV → FV := fun _ _ _ _ _ => num 0

/-- Concrete evaluation date 2021-01-01. -/
def now2021 : SimpleDate := ⟨2021, 1, 1⟩

/-- One-contract chain with strike 100.004, a value that cent truncation
changes, separating the map's keys from the PriceGrid. -/
def chainKeying : List OptionContract :=
  [⟨25001/250, "2021-01-02", "call", 0, none⟩]

/-- C1 (refuting): on the chain with the single strike 100.004 the
aggregate map's key set is `{100.004}` while the PriceGrid is `{100}`, so
the map is not keyed by the grid prices and its key set is not the
PriceGrid. -/
theorem aggregate_not_keyed_by_grid :
    (gamma_exposure_aggregate_map gammaZero now2021 chainKeying).map keysOf =
      .ok [(25001 : ℚ)/250]
    ∧ gridStrikes chainKeying = [(100 : ℚ)]
    ∧ (25001 : ℚ)/250 ≠ (100 : ℚ) := by
  refine ⟨by with_unfolding_all rfl, by with_unfolding_all rfl, by norm_num⟩

/-- One-contract chain used as the concrete witness instance of the
amended C1. -/
def chainSingle50 : List OptionContract := [⟨50, "2021-02-01", "call", 3, none⟩]

/-- Witness for the amended C1 at a concrete one-contract chain. -/
theorem aggregate_keys_own_strike_witness :
    gamma_exposure_aggregate_map gammaZero now2021 chainSingle50 =
      .ok [((50 : ℚ), num 0)]
    ∧ keysOf [((50 : ℚ), FV.num 0)] = chainSingle50.foldl ksUpdate [] :=
  ⟨by with_unfolding_all rfl,
    (aggregate_keys_own_strike gammaZero now2021 chainSingle50 [((50 : ℚ), FV.num 0)]
      (by with_unfolding_all rfl)).1⟩

/-- The cent quantisation the source actually performs: truncation toward
zero via `(strike * 100.0) as u64`, then division by 100. -/
def truncCents (q : ℚ) : ℚ := (satCastU64 (q * 100) : ℚ) / 100

/-- The specification's wording of the cent quantisation: rounding to the
nearest cent.  Defined only to compare the claim against the code. -/
def roundCentsSpec (q : ℚ) : ℚ := ((round (q * 100) : ℤ) : ℚ) / 100

/-- C5 (amended): the PriceGrid is the set of distinct strikes after
truncating each strike toward zero at cent precision: it has no duplicate
entries and contains exactly the truncations of the chain's strikes. -/
theorem grid_truncates_to_cents (options : List OptionContract) :
    (gridStrikes options).Nodup
    ∧ ∀ p, p ∈ gridStrikes options ↔ ∃ o ∈ options, truncCents o.strike = p := by
  constructor
  · unfold gridStrikes
    refine List.Nodup.map ?_ (List.nodup_dedup _)
    intro a b hab
    field_simp at hab
    exact_mod_cast hab
  · intro p
    unfold gridStrikes truncCents
    simp only [List.mem_map, List.mem_dedup]
    constructor
    · rintro ⟨n, ⟨o, ho, rfl⟩, rfl⟩
      exact ⟨o, ho, rfl⟩
    · rintro ⟨o, ho, rfl⟩
      exact ⟨satCastU64 (o.strike * 100), ⟨o, ho, rfl⟩, rfl⟩

/-- Two-contract chain with strikes 100.016 and 100.024, which agree after
rounding to cents but not after truncating. -/
def chainRounding : List OptionContract :=
  [⟨100016/1000, "2021-01-02", "call", 0, none⟩,
   ⟨100024/1000, "2021-01-02", "call", 0, none⟩]

/-- C5 (refuting): strikes 100.016 and 100.024 agree after rounding to
cents (both give 100.02), yet the code produces two distinct grid entries
(100.01 and 100.02) because it truncates rather than rounds. -/
theorem grid_not_rounding :
    roundCentsSpec (100016/1000) = roundCentsSpec (100024/1000)
    ∧ gridStrikes chainRounding = [(10001 : ℚ)/100, (5001 : ℚ)/50]
    ∧ (10001 : ℚ)/100 ≠ (5001 : ℚ)/50 := by
  refine ⟨?_, by with_unfolding_all rfl, by norm_num⟩
  unfold roundCentsSpec
  norm_num [round_eq]
